import Mathlib

set_option maxRecDepth 8000

/- Shallow embedding of the Mutual-Fund-Houses-Folio pipeline:
   `aggregate_portfolio.py` (header normalizer, section extractor, period
   orderer, cross-period merge, report assembly) and `web_app/app.py`
   (the inverse parse of the assembled report).  Python strings are
   embedded as lists of characters, Python/pandas cell values as the
   inductive `PyObj` below, and floats as exact rationals plus an
   explicit NaN constructor. -/

/-- Characters of a Python string. -/
abbrev Str := List Char

/-- Coerce a Lean string literal to the `Str` embedding. -/
def lit (s : String) : Str := s.data

/-- The whitespace set of Python `str.strip()` / `str.split()`. -/
def isWs (c : Char) : Bool :=
  c = ' ' || c = '\t' || c = '\n' || c = '\r' || c = '\x0b' || c = '\x0c'

/-- Python `str.strip()`. -/
def pyStrip (s : Str) : Str :=
  ((s.dropWhile isWs).reverse.dropWhile isWs).reverse

/-- Python `str.lower()` (ASCII case mapping, as used by the source's data). -/
def lowerStr (s : Str) : Str := s.map Char.toLower

/-- One character of `.replace('\n', ' ')`. -/
def nl2sp (c : Char) : Char := if c = '\n' then ' ' else c

/-- Does `pat` occur at the start of the second list? -/
def startsL : Str → Str → Bool
  | [], _ => true
  | _ :: _, [] => false
  | p :: ps, c :: cs => p = c && startsL ps cs

/-- Python substring test `pat in s`. -/
def hasSub (pat : Str) : Str → Bool
  | [] => startsL pat []
  | c :: cs => startsL pat (c :: cs) || hasSub pat cs

/-- The text that `normalize_header` tests its substring rules against:
    `header.lower().replace('\n', ' ').strip()`. -/
def procHeader (s : Str) : Str := pyStrip ((lowerStr s).map nl2sp)

/-- The six canonical column names, `COLUMN_MAPPING.values()` in the source,
    in the order of the rules of `normalize_header`. -/
def canonVals : List Str :=
  [lit ("Name"), lit ("ISIN"), lit ("Rating"),
   lit ("Quantity"), lit ("MarketValue"), lit ("PctAssets")]

/-- `normalize_header` from `aggregate_portfolio.py` (string inputs; a
    non-string header is normalized to `""` by the source and is never
    admitted by `selectCol` below). -/
def normalize_header (header : Str) : Str :=
  let h := procHeader header
  if hasSub (lit ("instrument")) h then lit ("Name")
  else if hasSub (lit ("isin")) h then lit ("ISIN")
  else if hasSub (lit ("industry")) h || hasSub (lit ("rating")) h then lit ("Rating")
  else if hasSub (lit ("quantity")) h then lit ("Quantity")
  else if hasSub (lit ("market value")) h || hasSub (lit ("rs. in lakhs")) h then
    lit ("MarketValue")
  else if hasSub (lit ("% to net assets")) h || hasSub (lit ("percentage")) h ||
      hasSub (lit ("%")) h then lit ("PctAssets")
  else header

/-- The column-rename step of `read_portfolio_file`: a column participates in
    the canonical-field mapping iff its normalized header is one of the six
    canonical names (`if cleaned in COLUMN_MAPPING.values()`); all other
    columns keep their original name and the merge loop never reads them. -/
def selectCol (col : Str) : Option Str :=
  let cleaned := normalize_header col
  if canonVals.contains cleaned then some cleaned else none

/-- Rule `i` (0-based) of the ordered substring rules of `normalize_header`. -/
def ruleMatches (i : Nat) (h : Str) : Bool :=
  match i with
  | 0 => hasSub (lit ("instrument")) h
  | 1 => hasSub (lit ("isin")) h
  | 2 => hasSub (lit ("industry")) h || hasSub (lit ("rating")) h
  | 3 => hasSub (lit ("quantity")) h
  | 4 => hasSub (lit ("market value")) h || hasSub (lit ("rs. in lakhs")) h
  | 5 => hasSub (lit ("% to net assets")) h || hasSub (lit ("percentage")) h ||
      hasSub (lit ("%")) h
  | _ => false

example : normalize_header (lit ("Market  Value\n(Rs. in Lakhs)")) = lit ("MarketValue") := by
  decide

example : normalize_header (lit ("  ISIN ")) = lit ("ISIN") := by decide

example : normalize_header (lit ("Name")) = lit ("Name") := by decide

example : selectCol (lit ("Name")) = some (lit ("Name")) := by decide

example : selectCol (lit ("Foo")) = none := by decide

/-- An embedded Python float: NaN or an exact finite value.  (The source's
    numeric data is decimal; rounding of binary floats is not load-bearing
    for any property proved here, so finite values are kept exact.) -/
inductive PyFloat
  | nan
  | fin (q : ℚ)
deriving DecidableEq

/-- A Python/pandas cell value as handled by the source: `None`, the float
    NaN (what pandas stores for an empty cell), a string, or a number. -/
inductive PyObj
  | none
  | nan
  | str (s : Str)
  | num (q : ℚ)
deriving DecidableEq

/-- `pd.isna`: true exactly on `None` and NaN. -/
def isna : PyObj → Bool
  | .none => true
  | .nan => true
  | _ => false

/-- `pd.notna`. -/
def notna (v : PyObj) : Bool := !isna v

/-- Python truthiness of a cell value.  NaN is truthy in Python. -/
def truthy : PyObj → Bool
  | .none => false
  | .nan => true
  | .str s => s ≠ []
  | .num q => q ≠ 0

/-- Decimal digits of a natural number. -/
def natRepr (n : ℕ) : Str := Nat.toDigits 10 n

/-- Decimal digits of an integer. -/
def intRepr (i : ℤ) : Str :=
  if i < 0 then '-' :: natRepr i.natAbs else natRepr i.natAbs

/-- Stand-in for Python `str()` of a number.  Python renders floats as
    digit strings (possibly with `.`, `-`, `e`); this rendering also
    consists only of digits and punctuation, and no theorem below depends
    on its exact shape — the source only ever asks whether such a string
    is empty, equals "nan", or contains an alphabetic marker phrase, and
    both renderings answer those questions identically. -/
def ratRepr (q : ℚ) : Str :=
  if q.den = 1 then intRepr q.num else intRepr q.num ++ '/' :: natRepr q.den

/-- Python `str()` of a cell value. -/
def pyStr : PyObj → Str
  | .none => lit ("None")
  | .nan => lit ("nan")
  | .str s => s
  | .num q => ratRepr q

/-- Digit run at the start of a decimal literal, as a natural number. -/
def strToNat (s : Str) : ℕ :=
  s.foldl (fun a c => a * 10 + (c.toNat - ('0').toNat)) 0

/-- Exact rational addition, phrased through `mkRat` so that it evaluates
    inside the kernel (the core `Rat.add` is irreducible); `qAdd_eq_add`
    below proves it is ordinary addition. -/
def qAdd (a b : ℚ) : ℚ :=
  mkRat (a.num * (b.den : ℤ) + b.num * (a.den : ℤ)) (a.den * b.den)

theorem qAdd_eq_add (a b : ℚ) : qAdd a b = a + b := by
  conv_rhs => rw [← Rat.num_divInt_den a, ← Rat.num_divInt_den b]
  rw [Rat.divInt_add_divInt _ _ (Int.natCast_ne_zero.mpr (Rat.den_ne_zero a))
    (Int.natCast_ne_zero.mpr (Rat.den_ne_zero b)), qAdd, Rat.mkRat_eq_divInt]
  push_cast
  rfl

/-- Python `float(string)` on the decimal core: optional sign, digits with
    an optional point, or "nan"; `none` means `ValueError`.  (Exponent,
    underscore and infinity literals do not occur in the source's data and
    are modelled as errors.) -/
def parsePyFloat (s : Str) : Option PyFloat :=
  let t := lowerStr (pyStrip s)
  let sgn : ℤ × Str :=
    match t with
    | '+' :: rest => (1, rest)
    | '-' :: rest => (-1, rest)
    | _ => (1, t)
  if sgn.2 = lit ("nan") then some .nan
  else
    let intPart := sgn.2.takeWhile Char.isDigit
    let rest := sgn.2.dropWhile Char.isDigit
    match rest with
    | [] =>
      if intPart = [] then Option.none
      else some (.fin (mkRat (sgn.1 * (strToNat intPart : ℤ)) 1))
    | '.' :: frac =>
      if frac.all Char.isDigit && (intPart ≠ [] || frac ≠ []) then
        some (.fin (mkRat
          (sgn.1 * ((strToNat intPart : ℤ) * ((10 ^ frac.length : ℕ) : ℤ) +
            (strToNat frac : ℤ)))
          (10 ^ frac.length)))
      else Option.none
    | _ => Option.none

/-- Python `float(x)` on a cell value; `none` means an exception was raised
    (`float(None)` is a TypeError, a bad string a ValueError).  `float` of
    the NaN float succeeds and returns NaN. -/
def pyFloatFn : PyObj → Option PyFloat
  | .none => Option.none
  | .nan => some .nan
  | .num q => some (.fin q)
  | .str s => parsePyFloat s

/-- The `v_float` computation of `write_val` (and of `get_val`):
    `v_float = 0.0; try: v_float = float(raw_val); except: pass`. -/
def coerceF (raw : PyObj) : PyFloat :=
  match pyFloatFn raw with
  | some f => f
  | Option.none => .fin 0

/-- Float addition with NaN propagation (`column_totals[c_idx] += v_float`). -/
def pfAdd : PyFloat → PyFloat → PyFloat
  | .nan, _ => .nan
  | .fin _, .nan => .nan
  | .fin a, .fin b => .fin (qAdd a b)

/-- A float stored back into a cell. -/
def pfToObj : PyFloat → PyObj
  | .nan => .nan
  | .fin q => .num q

example : coerceF PyObj.none = PyFloat.fin 0 := by decide
example : coerceF PyObj.nan = PyFloat.nan := by decide
example : coerceF (PyObj.str (lit ("12.5"))) = PyFloat.fin (mkRat 25 2) := by decide
example : coerceF (PyObj.str (lit ("abc"))) = PyFloat.fin 0 := by decide
example : coerceF (PyObj.str (lit (" -3. "))) = PyFloat.fin (mkRat (-3) 1) := by decide
example : pfAdd (PyFloat.fin 2) (PyFloat.fin 3) = PyFloat.fin 5 := by decide
example : pfAdd (PyFloat.fin 2) PyFloat.nan = PyFloat.nan := by decide
example : coerceF (PyObj.str (lit ("NaN"))) = PyFloat.nan := by decide

/-- One row of the reloaded dataframe after the column-rename step of
    `read_portfolio_file`: column name → cell value, in column order.
    Column names are assumed distinct (pandas dataframes in this pipeline
    have distinct headers after renaming keeps the first occurrence). -/
structure XRow where
  cells : List (Str × PyObj)
deriving DecidableEq

/-- `row.get(k)`: the value of column `k`, if present. -/
def rowGet (r : XRow) (k : Str) : Option PyObj :=
  (r.cells.find? (fun p => p.1 = k)).map (fun p => p.2)

/-- Python `" ".join(s.split())`: collapse whitespace runs to single
    spaces and strip the ends. -/
def wsCollapse (s : Str) : Str :=
  List.intercalate [' '] ((s.splitOnP isWs).filter (fun w => w ≠ []))

/-- The `content_lower` computation of the section loop: the Name cell if
    present and truthy and not the string "nan", otherwise all cell values
    joined with spaces; lower-cased and whitespace-collapsed. -/
def contentLower (r : XRow) : Str :=
  let c0 :=
    match rowGet r (lit ("Name")) with
    | some v => pyStr v
    | Option.none => []
  let c :=
    if c0 = [] || lowerStr c0 = lit ("nan") then
      List.intercalate [' '] (r.cells.map (fun p => pyStr p.2))
    else c0
  wsCollapse (lowerStr c)

/-- `"(a) listed" in content_lower and "stock" in content_lower`. -/
def isStartRow (r : XRow) : Bool :=
  hasSub (lit ("(a) listed")) (contentLower r) &&
    hasSub (lit ("stock")) (contentLower r)

/-- The stop markers, lower-cased as compared by the source. -/
def stopMarkers : List Str :=
  [lit ("arbitrage"), lit ("sub total"), lit ("total"), lit ("debt"),
   lit ("cash"), lit ("grand total")]

/-- `any(m.lower() in content_lower for m in stop_markers)`. -/
def isStopRow (r : XRow) : Bool :=
  stopMarkers.any (fun m => hasSub m (contentLower r))

/-- The row filter of the capture phase: `pd.notna(isin) and
    str(isin).strip() != '' and str(isin).lower() != 'nan'`. -/
def isinOk (r : XRow) : Bool :=
  match rowGet r (lit ("ISIN")) with
  | some v => notna v && pyStrip (pyStr v) ≠ [] && lowerStr (pyStr v) ≠ lit ("nan")
  | Option.none => false

/-- The section state machine of `read_portfolio_file` (the loop over
    `df.iterrows()`): seek the start-marker row, then capture rows with a
    qualifying ISIN until a stop-marker row `break`s the loop; the
    start-marker test is evaluated first on every row, even while
    capturing, and such rows are `continue`d over. -/
def extractRows : List XRow → Bool → List XRow
  | [], _ => []
  | r :: rs, capturing =>
    if isStartRow r then extractRows rs true
    else if capturing then
      if isStopRow r then []
      else if isinOk r then r :: extractRows rs capturing
      else extractRows rs capturing
    else extractRows rs capturing

/-- The fixed calendar table `month_order`. -/
def month_order : List Str :=
  [lit ("January"), lit ("February"), lit ("March"), lit ("April"),
   lit ("May"), lit ("June"), lit ("July"), lit ("August"),
   lit ("September"), lit ("October"), lit ("November"), lit ("December")]

/-- Python `str.isdigit()` on the ASCII data of this pipeline. -/
def pyIsDigit (s : Str) : Bool := s ≠ [] && s.all Char.isDigit

/-- `sort_months_key` from `aggregate_portfolio.py`: a label that splits on
    '_' into exactly two parts yields `(int(year) if digits else 9999,
    month_order.index(month) if known else 99)`; anything else — no
    underscore, or a split that does not unpack into two parts (a
    `ValueError` caught by the bare `except`) — yields `(9999, 99)`. -/
def sort_months_key (m : Str) : ℕ × ℕ :=
  if m.contains '_' then
    match m.splitOn '_' with
    | [mo, y] =>
      (if pyIsDigit y then strToNat y else 9999,
       if mo ∈ month_order then month_order.indexOf mo else 99)
    | _ => (9999, 99)
  else (9999, 99)

/-- Lexicographic comparison of period keys, the tuple ordering Python's
    `sorted` uses on `sort_months_key` results. -/
def keyLe (a b : Str) : Prop :=
  (sort_months_key a).1 < (sort_months_key b).1 ∨
    ((sort_months_key a).1 = (sort_months_key b).1 ∧
      (sort_months_key a).2 ≤ (sort_months_key b).2)

instance : DecidableRel keyLe := fun a b => by
  unfold keyLe
  infer_instance

/-- `sorted(list(all_months), key=sort_months_key)`: Python's sort is
    stable with respect to the key order, so it is extensionally insertion
    sort by the (total, reflexive, transitive) relation `keyLe`. -/
def sortedMonths (ms : List Str) : List Str := List.insertionSort keyLe ms

/-- A label that `sort_months_key` parses fully: underscore-split into a
    recognized month name and a digit year. -/
def wellFormedPeriod (m : Str) : Bool :=
  m.contains '_' &&
    (match m.splitOn '_' with
     | [mo, y] => pyIsDigit y && mo ∈ month_order
     | _ => false)

example : sort_months_key (lit ("January_2025")) = (2025, 0) := by decide
example : sort_months_key (lit ("Feb_Bad")) = (9999, 99) := by decide
example : sort_months_key (lit ("March_2025")) = (2025, 2) := by decide
example : sort_months_key (lit ("January_10000")) = (10000, 0) := by decide
example :
    sortedMonths [lit ("March_2025"), lit ("Feb_Bad"), lit ("January_2025")] =
      [lit ("January_2025"), lit ("March_2025"), lit ("Feb_Bad")] := by decide

/-- The three per-period metric values written by the merge loop
    (`{'Quantity': …, 'MarketValue': …, 'PctAssets': …}`), kept raw —
    absent columns give `None`, empty cells give NaN. -/
structure MetricRec where
  quantity : PyObj
  marketValue : PyObj
  pctAssets : PyObj
deriving DecidableEq

/-- One extracted record as the merge loop reads it: the six canonical
    fields via `row.get` (a field whose column is absent reads `None`). -/
structure Rec where
  name : PyObj
  isin : PyObj
  rating : PyObj
  quantity : PyObj
  marketValue : PyObj
  pctAssets : PyObj
deriving DecidableEq

/-- The metrics dict built from a record. -/
def metricsOf (r : Rec) : MetricRec :=
  ⟨r.quantity, r.marketValue, r.pctAssets⟩

/-- The merge key: `str(row['ISIN']).strip()`. -/
def keyOf (r : Rec) : Str := pyStrip (pyStr r.isin)

/-- A `PortfolioEntry`: Name, Industry/Rating and the per-period metrics
    map, in period insertion order (a Python dict). -/
structure Entry where
  name : PyObj
  rating : PyObj
  months : List (Str × MetricRec)
deriving DecidableEq

/-- The merged mapping `portfolio`, a dict in insertion order. -/
abbrev PF := List (Str × Entry)

/-- Dict lookup (first binding wins; reachable states have distinct keys). -/
def lookupA {β : Type} (k : Str) : List (Str × β) → Option β
  | [] => Option.none
  | (k', v) :: rest => if k' = k then some v else lookupA k rest

/-- Dict write `d[k] = v`: replace in place, else append. -/
def setA {β : Type} (k : Str) (v : β) : List (Str × β) → List (Str × β)
  | [] => [(k, v)]
  | (k', v') :: rest => if k' = k then (k, v) :: rest else (k', v') :: setA k v rest

/-- Update the value at `k` in place (no-op when absent). -/
def updA {β : Type} (k : Str) (f : β → β) : List (Str × β) → List (Str × β)
  | [] => []
  | (k', v) :: rest => if k' = k then (k', f v) :: rest else (k', v) :: updA k f rest

/-- The keys of a dict, in insertion order. -/
def keysOf {β : Type} (s : List (Str × β)) : List Str := s.map (fun p => p.1)

/-- The body of the merge loop of `main` for one record:
    create the entry if the key is new (copying Name/Rating), then
    `if not portfolio[isin]['Name'] and pd.notna(row.get('Name')):`
    overwrite Name, then unconditionally write this file's period metrics. -/
def processRow (fname : Str) (pf : PF) (r : Rec) : PF :=
  let isin := keyOf r
  let s1 :=
    if (lookupA isin pf).isSome then pf
    else pf ++ [(isin, ⟨r.name, r.rating, []⟩)]
  let s2 := updA isin
    (fun e => if !truthy e.name && notna r.name then { e with name := r.name } else e) s1
  updA isin (fun e => { e with months := setA fname (metricsOf r) e.months }) s2

/-- Processing one file's record list under its period label. -/
def processFile (fname : Str) (pf : PF) (rs : List Rec) : PF :=
  rs.foldl (processRow fname) pf

/-- The single-key view of `processRow`: what the entry under the record's
    key becomes (creation, metadata rule, metrics write). -/
def entProc (fname : Str) (e : Option Entry) (r : Rec) : Entry :=
  let e0 :=
    match e with
    | some y => y
    | Option.none => ⟨r.name, r.rating, []⟩
  let e1 := if !truthy e0.name && notna r.name then { e0 with name := r.name } else e0
  { e1 with months := setA fname (metricsOf r) e1.months }

/-- Single-key view of a whole file. -/
def entFold (fname : Str) (e : Option Entry) (rs : List Rec) : Option Entry :=
  rs.foldl (fun a r => some (entProc fname a r)) e

/-- `m_data.get(key)` in the assembly loop: the stored raw metric for a
    period, `None` when the entry has no data for that period
    (`data['Months'].get(m, {})` and then `.get(key)`). -/
def rawOf (e : Entry) (m : Str) (sel : MetricRec → PyObj) : PyObj :=
  match lookupA m e.months with
  | some md => sel md
  | Option.none => PyObj.none

/-- The cell written by `write_val`: `None` stays blank, anything else is
    written as its coerced float (which is NaN for a NaN raw value). -/
def writeCell (raw : PyObj) : PyObj :=
  if raw = PyObj.none then PyObj.none else pfToObj (coerceF raw)

/-- `column_totals[c_idx]`: initialized to 0.0 per month column and
    accumulated with `+= v_float` over the data rows in row order. -/
def columnTotal (pf : PF) (m : Str) (sel : MetricRec → PyObj) : PyFloat :=
  pf.foldl (fun a p => pfAdd a (coerceF (rawOf p.2 m sel))) (PyFloat.fin 0)

/-- Row 2's three static headers. -/
def staticHeaders : List PyObj :=
  [PyObj.str (lit ("Name of the Instrument")), PyObj.str (lit ("ISIN")),
   PyObj.str (lit ("Industry/Rating"))]

/-- The three cells of one month group in a data row. -/
def monthTriple (e : Entry) (m : Str) : List PyObj :=
  [writeCell (rawOf e m (fun x => x.quantity)),
   writeCell (rawOf e m (fun x => x.marketValue)),
   writeCell (rawOf e m (fun x => x.pctAssets))]

/-- A data row: Name, ISIN, Rating, then one metric triple per month. -/
def dataRow (isin : Str) (e : Entry) (ms : List Str) : List PyObj :=
  [e.name, PyObj.str isin, e.rating] ++ ms.flatMap (monthTriple e)

/-- Row 2: static headers, then each month name in the first cell of its
    merged three-column group (the merged-over cells read back as NaN/empty,
    modelled as blank). -/
def headerRow2 (ms : List Str) : List PyObj :=
  staticHeaders ++ ms.flatMap (fun m => [PyObj.str m, PyObj.none, PyObj.none])

/-- Row 3: the repeating sub-headers. -/
def headerRow3 (ms : List Str) : List PyObj :=
  [PyObj.none, PyObj.none, PyObj.none] ++
    ms.flatMap (fun _ =>
      [PyObj.str (lit ("Quantity")), PyObj.str (lit ("Market Value (Rs. Lakhs)")),
       PyObj.str (lit ("% Net Assets"))])

/-- Row 1: the title, merged across the full width. -/
def titleRow (ms : List Str) : List PyObj :=
  PyObj.str (lit ("PPFAS Flexi cap Fund")) ::
    List.replicate (2 + 3 * ms.length) PyObj.none

/-- The written sums, three per month in month order (`column_totals` is a
    dict keyed by column index, inserted in that order). -/
def totalsCells (pf : PF) (ms : List Str) : List PyObj :=
  ms.flatMap (fun m =>
    [pfToObj (columnTotal pf m (fun x => x.quantity)),
     pfToObj (columnTotal pf m (fun x => x.marketValue)),
     pfToObj (columnTotal pf m (fun x => x.pctAssets))])

/-- The totals row: "Total" in column 1, sums in the month columns. -/
def totalsRow (pf : PF) (ms : List Str) : List PyObj :=
  [PyObj.str (lit ("Total")), PyObj.none, PyObj.none] ++ totalsCells pf ms

/-- The serialized ReportMatrix built by `main`: three header rows, one data
    row per portfolio entry in insertion order, and the totals row. -/
def assemble (pf : PF) (ms : List Str) : List (List PyObj) :=
  [titleRow ms, headerRow2 ms, headerRow3 ms] ++
    pf.map (fun p => dataRow p.1 p.2 ms) ++ [totalsRow pf ms]

/-- One input file of `main`'s loop: the period label derived from its
    filename, and the extraction result (`None` when `read_portfolio_file`
    returned `None`: header not found, or any exception). -/
structure FileIn where
  fname : Str
  parsed : Option (List Rec)
deriving DecidableEq

/-- The `portfolio` accumulation of `main`: files whose extraction failed
    are skipped (`if df is None: continue`). -/
def portfolioOf (files : List FileIn) : PF :=
  files.foldl
    (fun pf fi =>
      match fi.parsed with
      | some rs => processFile fi.fname pf rs
      | Option.none => pf) []

/-- The `all_months` accumulation of `main`: the label is added before the
    file is parsed, so of every file regardless of extraction success.
    `all_months` is a Python set; it is modelled as a deduplicated list —
    membership is the set's content, and the claims below depend only on
    membership and on the sort keys, not on the set's iteration order. -/
def allMonthsOf (files : List FileIn) : List Str :=
  files.foldl (fun ms fi => if fi.fname ∈ ms then ms else ms ++ [fi.fname]) []

/-- A record of the web app's `read_portfolio_data`: display name, sanitized
    ISIN and rating, and per-month `{Quantity, Value, Pct}` floats. -/
structure RbRec where
  name : PyObj
  isin : Str
  rating : Str
  months : List (PyObj × (PyFloat × PyFloat × PyFloat))
deriving DecidableEq

/-- `row[i]` on a parsed row (pandas pads short rows with NaN; an assembled
    matrix is rectangular, so the default is never hit in the round trip). -/
def cellAt (row : List PyObj) (i : ℕ) : PyObj := row.getD i PyObj.none

/-- Every third element: the cells `range(3, len(month_row), 3)` visits,
    after the first three columns are dropped. -/
def every3From : List PyObj → List PyObj
  | [] => []
  | [v] => [v]
  | [v, _] => [v]
  | v :: _ :: _ :: rest => v :: every3From rest

/-- The month labels the web app reads from the tier-1 header row (row
    index 1): every third cell starting at column 3, keeping non-NA values. -/
def matrixMonths (mat : List (List PyObj)) : List PyObj :=
  (every3From ((mat.getD 1 []).drop 3)).filter (fun v => notna v)

/-- `clean_meta`: NA or the string "nan" become `""`, else `str(val)`. -/
def cleanMeta (v : PyObj) : Str :=
  if isna v || lowerStr (pyStr v) = lit ("nan") then [] else pyStr v

/-- `clean`: NA or `""` become 0.0, else `float(val)` with errors as 0.0. -/
def cleanNum (v : PyObj) : PyFloat :=
  if isna v || v = PyObj.str [] then PyFloat.fin 0
  else
    match pyFloatFn v with
    | some f => f
    | Option.none => PyFloat.fin 0

/-- The per-month read-back loop: fixed offsets 3+3i, 3+3i+1, 3+3i+2. -/
def buildMonths (row : List PyObj) :
    ℕ → List PyObj → List (PyObj × (PyFloat × PyFloat × PyFloat))
  | _, [] => []
  | i, m :: ms =>
    (m, (cleanNum (cellAt row i), cleanNum (cellAt row (i + 1)),
      cleanNum (cellAt row (i + 2)))) :: buildMonths row (i + 3) ms

/-- One data row of the web app's loop: skipped when the first column is
    NA or reads "nan", else assembled into a record. -/
def rowRecord (months : List PyObj) (row : List PyObj) : Option RbRec :=
  let c0 := cellAt row 0
  if isna c0 || lowerStr (pyStr c0) = lit ("nan") then Option.none
  else some ⟨c0, cleanMeta (cellAt row 1), cleanMeta (cellAt row 2),
    buildMonths row 3 months⟩

/-- `read_portfolio_data` from `web_app/app.py` on the logical grid: the
    months from header row 1 (0-indexed), and records from every row after
    the first three — which includes the totals row. -/
def readBack (mat : List (List PyObj)) : List PyObj × List RbRec :=
  let months := matrixMonths mat
  (months, (mat.drop 3).filterMap (rowRecord months))

/-- The per-character effect of `.lower().replace('\n', ' ')`. -/
def procChar (c : Char) : Char := nl2sp (Char.toLower c)

theorem procHeader_eq_map (s : Str) : procHeader s = pyStrip (s.map procChar) := by
  simp only [procHeader, lowerStr, List.map_map]
  rfl

theorem isWs_procChar {c : Char} (h : isWs c = true) : isWs (procChar c) = true := by
  simp only [isWs, Bool.or_eq_true, decide_eq_true_eq] at h
  rcases h with ((((h | h) | h) | h) | h) | h <;> subst h <;> decide

theorem dropWhile_ws_append (w s : Str) (hw : ∀ c ∈ w, isWs c = true) :
    List.dropWhile isWs (w ++ s) = List.dropWhile isWs s := by
  induction w with
  | nil => rfl
  | cons c cs ih =>
    simp only [List.cons_append, List.dropWhile_cons, hw c (by simp)]
    exact ih (fun d hd => hw d (by simp [hd]))

theorem pyStrip_ws_left (w s : Str) (hw : ∀ c ∈ w, isWs c = true) :
    pyStrip (w ++ s) = pyStrip s := by
  simp [pyStrip, dropWhile_ws_append w s hw]

theorem pyStrip_ws_right (w s : Str) (hw : ∀ c ∈ w, isWs c = true) :
    pyStrip (s ++ w) = pyStrip s := by
  by_cases hall : ∀ c ∈ s, isWs c = true
  · have h1 : List.dropWhile isWs (s ++ w) = [] := by
      rw [dropWhile_ws_append s w hall, List.dropWhile_eq_nil_iff.mpr]
      intro x hx
      exact hw x hx
    have h2 : List.dropWhile isWs s = [] := List.dropWhile_eq_nil_iff.mpr hall
    simp [pyStrip, h1, h2]
  · have hne : List.dropWhile isWs s ≠ [] := by
      intro hc
      exact hall (List.dropWhile_eq_nil_iff.mp hc)
    have h1 : List.dropWhile isWs (s ++ w) = List.dropWhile isWs s ++ w := by
      rw [List.dropWhile_append]
      simp [List.isEmpty_iff, hne]
    have h2 : ∀ c ∈ w.reverse, isWs c = true := by
      intro c hc
      exact hw c (List.mem_reverse.mp hc)
    simp [pyStrip, h1, List.reverse_append, dropWhile_ws_append _ _ h2]

theorem map_procChar_of_forall₂ {h v : Str}
    (hvar : List.Forall₂ (fun a b => procChar a = procChar b) h v) :
    v.map procChar = h.map procChar := by
  induction hvar with
  | nil => rfl
  | cons hab _ ih => simp [ih, hab]

theorem procHeader_invariant (h v w1 w2 : Str)
    (hw1 : ∀ c ∈ w1, isWs c = true) (hw2 : ∀ c ∈ w2, isWs c = true)
    (hvar : List.Forall₂ (fun a b => procChar a = procChar b) h v) :
    procHeader (w1 ++ v ++ w2) = procHeader h := by
  rw [procHeader_eq_map, procHeader_eq_map]
  rw [List.append_assoc, List.map_append, List.map_append]
  rw [pyStrip_ws_left _ _ (by
    intro c hc
    obtain ⟨d, hd, rfl⟩ := List.mem_map.mp hc
    exact isWs_procChar (hw1 d hd))]
  rw [pyStrip_ws_right _ _ (by
    intro c hc
    obtain ⟨d, hd, rfl⟩ := List.mem_map.mp hc
    exact isWs_procChar (hw2 d hd))]
  rw [map_procChar_of_forall₂ hvar]

/-- C5: for every header text some substring rule recognizes, the Header
    Normalizer returns the same canonical field for every variant differing
    only in letter case, internal newline-for-space substitutions, and
    leading/trailing whitespace; the result is one of the six canonical
    fields. -/
theorem headerNormalizerInvariance (h v w1 w2 : Str)
    (hw1 : ∀ c ∈ w1, isWs c = true) (hw2 : ∀ c ∈ w2, isWs c = true)
    (hvar : List.Forall₂ (fun a b => procChar a = procChar b) h v)
    (hrec : ∃ i, i < 6 ∧ ruleMatches i (procHeader h) = true) :
    normalize_header (w1 ++ v ++ w2) = normalize_header h ∧
      normalize_header h ∈ canonVals := by
  have hproc := procHeader_invariant h v w1 w2 hw1 hw2 hvar
  constructor
  · simp only [normalize_header]
    rw [hproc]
    split_ifs <;>
      first
        | rfl
        | (exfalso
           obtain ⟨i, hi, hm⟩ := hrec
           interval_cases i <;> simp_all [ruleMatches])
  · simp only [normalize_header]
    split_ifs <;>
      first
        | decide
        | (exfalso
           obtain ⟨i, hi, hm⟩ := hrec
           interval_cases i <;> simp_all [ruleMatches])

/-- C5 witness: " MARKET\nVALUE\t" and "Market Value" normalize alike. -/
theorem headerNormalizerInvariance_witness :
    normalize_header (lit (" ") ++ lit ("MARKET\nVALUE") ++ lit ("\t")) =
        normalize_header (lit ("Market Value")) ∧
      normalize_header (lit ("Market Value")) ∈ canonVals :=
  headerNormalizerInvariance (lit ("Market Value")) (lit ("MARKET\nVALUE"))
    (lit (" ")) (lit ("\t")) (by decide) (by decide) (by decide)
    ⟨4, by decide, by decide⟩

/-- The index of the first substring rule matching a processed header, if
    any (the order of the `if` chain of `normalize_header`). -/
def matchedRule (h : Str) : Option ℕ :=
  if ruleMatches 0 h then some 0
  else if ruleMatches 1 h then some 1
  else if ruleMatches 2 h then some 2
  else if ruleMatches 3 h then some 3
  else if ruleMatches 4 h then some 4
  else if ruleMatches 5 h then some 5
  else Option.none

theorem matchedRule_lt {h : Str} {i : ℕ} (hm : matchedRule h = some i) : i < 6 := by
  unfold matchedRule at hm
  split_ifs at hm <;> simp_all <;> omega

theorem normalize_header_of_matchedRule_none {col : Str}
    (hm : matchedRule (procHeader col) = Option.none) :
    normalize_header col = col := by
  unfold matchedRule at hm
  simp only [ruleMatches] at hm
  simp only [normalize_header]
  split_ifs at hm ⊢ <;> simp_all

theorem normalize_header_of_matchedRule_some {col : Str} {i : ℕ}
    (hm : matchedRule (procHeader col) = some i) :
    normalize_header col = canonVals.getD i [] := by
  unfold matchedRule at hm
  simp only [ruleMatches] at hm
  simp only [normalize_header]
  split_ifs at hm ⊢ <;> simp_all <;> subst hm <;> rfl

/-- C6 counterexample: the header text "Name" matches none of the six
    substring rules, yet the rename step maps the column to the canonical
    field Name (because `normalize_header` returns unrecognized headers
    unchanged and the membership filter admits the literal name), so its
    cells are read downstream — the claim's exclusion fails. -/
theorem unrecognizedHeaderInert_counterexample :
    matchedRule (procHeader (lit ("Name"))) = Option.none ∧
      selectCol (lit ("Name")) = some (lit ("Name")) := by decide

/-- C6 amended: a column whose header matches no rule is excluded from the
    canonical mapping only when its verbatim header text is not itself one
    of the six canonical names; and when some rule matches, the first
    matching rule alone decides the field. -/
theorem unrecognizedHeaderInert (col : Str) :
    (matchedRule (procHeader col) = Option.none → col ∉ canonVals →
      selectCol col = Option.none) ∧
    (∀ i, matchedRule (procHeader col) = some i →
      selectCol col = some (canonVals.getD i [])) := by
  constructor
  · intro hm hmem
    rw [selectCol, normalize_header_of_matchedRule_none hm]
    have hc : canonVals.contains col = false := by
      rw [← Bool.not_eq_true, List.elem_iff]
      exact hmem
    simp only [hc]
    simpa using hmem
  · intro i hm
    have hi := matchedRule_lt hm
    rw [selectCol, normalize_header_of_matchedRule_some hm]
    interval_cases i <;> decide

/-- C6 witness: "Foo" stays unmapped; "Quantity Held" maps via rule 3. -/
theorem unrecognizedHeaderInert_witness :
    selectCol (lit ("Foo")) = Option.none ∧
      selectCol (lit ("Quantity Held")) = some (canonVals.getD 3 []) :=
  ⟨(unrecognizedHeaderInert (lit ("Foo"))).1 (by decide) (by decide),
   (unrecognizedHeaderInert (lit ("Quantity Held"))).2 3 (by decide)⟩

/-- C3 counterexample: the malformed label "Foo_2025" (month unrecognized)
    does not get a single sort-last sentinel — its key is (2025, 99), not
    (9999, 99) — and it sorts BEFORE the well-formed label "January_2026",
    so malformed labels do not all sort after all well-formed ones. -/
theorem periodOrderingSentinel_counterexample :
    wellFormedPeriod (lit ("Foo_2025")) = false ∧
      sort_months_key (lit ("Foo_2025")) = (2025, 99) ∧
      sort_months_key (lit ("Foo_2025")) ≠ (9999, 99) ∧
      wellFormedPeriod (lit ("January_2026")) = true ∧
      sortedMonths [lit ("January_2026"), lit ("Foo_2025")] =
        [lit ("Foo_2025"), lit ("January_2026")] := by decide

/-- C3 amended: the fallback is per component, not a single sentinel — a
    label that does not split into exactly two parts keys as (9999, 99);
    otherwise a non-digit year falls back to 9999 and an unrecognized
    month name to 99 separately.  A fully well-formed label whose year is
    at most 9999 still sorts strictly before the full sentinel (9999, 99),
    and the spec's example orders as stated. -/
theorem periodOrderingSentinel :
    (∀ m, (m.splitOn '_').length ≠ 2 → sort_months_key m = (9999, 99)) ∧
    (∀ mo y m, m.splitOn '_' = [mo, y] → m.contains '_' = true →
      sort_months_key m =
        (if pyIsDigit y then strToNat y else 9999,
         if mo ∈ month_order then month_order.indexOf mo else 99)) ∧
    (∀ m, wellFormedPeriod m = true → (sort_months_key m).1 ≤ 9999 →
      ((sort_months_key m).1 < 9999 ∨
        ((sort_months_key m).1 = 9999 ∧ (sort_months_key m).2 < 99))) ∧
    sortedMonths [lit ("March_2025"), lit ("Feb_Bad"), lit ("January_2025")] =
      [lit ("January_2025"), lit ("March_2025"), lit ("Feb_Bad")] := by
  refine ⟨?_, ?_, ?_, by decide⟩
  · intro m hlen
    unfold sort_months_key
    split_ifs with hc
    · rcases hs : m.splitOn '_' with _ | ⟨a, _ | ⟨b, _ | ⟨c, t⟩⟩⟩ <;>
        simp [hs] at hlen ⊢
    · rfl
  · intro mo y m hs hc
    unfold sort_months_key
    rw [if_pos hc, hs]
  · intro m hwf hle
    unfold wellFormedPeriod at hwf
    rw [Bool.and_eq_true] at hwf
    obtain ⟨hc, hrest⟩ := hwf
    rcases hs : m.splitOn '_' with _ | ⟨a, _ | ⟨b, _ | ⟨c, t⟩⟩⟩ <;>
      rw [hs] at hrest <;> try simp at hrest
    obtain ⟨hdig, hmem'⟩ := hrest
    have hkey : sort_months_key m = (strToNat b, month_order.indexOf a) := by
      unfold sort_months_key
      rw [if_pos hc, hs]
      simp [hdig, hmem']
    rw [hkey] at hle ⊢
    dsimp only at hle ⊢
    rcases Nat.lt_or_ge (strToNat b) 9999 with h | h
    · exact Or.inl h
    · refine Or.inr ⟨le_antisymm hle h, ?_⟩
      fin_cases hmem' <;> decide

/-- C3 witness: a three-part label keys as the full sentinel, and the
    well-formed "January_9999" still sorts strictly before it. -/
theorem periodOrderingSentinel_witness :
    sort_months_key (lit ("A_B_C")) = (9999, 99) ∧
      ((sort_months_key (lit ("January_9999"))).1 < 9999 ∨
        ((sort_months_key (lit ("January_9999"))).1 = 9999 ∧
          (sort_months_key (lit ("January_9999"))).2 < 99)) :=
  ⟨periodOrderingSentinel.1 (lit ("A_B_C")) (by decide),
   periodOrderingSentinel.2.2.1 (lit ("January_9999")) (by decide) (by decide)⟩

/-- C7: every row the section extractor emits carries an ISIN cell that is
    non-empty after stripping (and is not the float NaN nor the string
    "nan"); rows without one are skipped, not errors. -/
theorem sectionExtractorNonEmptyIdentifier (rows : List XRow) (c : Bool)
    (r : XRow) (hme : r ∈ extractRows rows c) :
    ∃ v, rowGet r (lit ("ISIN")) = some v ∧ notna v = true ∧
      pyStrip (pyStr v) ≠ [] := by
  induction rows generalizing c with
  | nil => simp [extractRows] at hme
  | cons r0 rest ih =>
    unfold extractRows at hme
    split_ifs at hme with h1 h2 h3 h4
    · exact ih true hme
    · simp at hme
    · rcases List.mem_cons.mp hme with rfl | hrest
      · unfold isinOk at h4
        cases hrg : rowGet r (lit ("ISIN")) with
        | none => rw [hrg] at h4; simp at h4
        | some v =>
          rw [hrg] at h4
          simp only [Bool.and_eq_true, decide_eq_true_eq] at h4
          exact ⟨v, rfl, h4.1.1, h4.1.2⟩
      · exact ih c hrest
    · exact ih c hme
    · exact ih c hme

/-- C7 witness: a concrete two-row snapshot. -/
theorem sectionExtractorNonEmptyIdentifier_witness :
    ∃ v, rowGet (XRow.mk [(lit ("Name"), PyObj.str (lit ("Acme Ltd"))),
        (lit ("ISIN"), PyObj.str (lit ("INE123A01016")))]) (lit ("ISIN")) = some v ∧
      notna v = true ∧ pyStrip (pyStr v) ≠ [] :=
  sectionExtractorNonEmptyIdentifier
    [XRow.mk [(lit ("Name"),
        PyObj.str (lit ("(a) Listed / awaiting listing on Stock Exchanges")))],
     XRow.mk [(lit ("Name"), PyObj.str (lit ("Acme Ltd"))),
        (lit ("ISIN"), PyObj.str (lit ("INE123A01016")))]]
    false
    (XRow.mk [(lit ("Name"), PyObj.str (lit ("Acme Ltd"))),
        (lit ("ISIN"), PyObj.str (lit ("INE123A01016")))])
    (by decide)

/-- The start-marker row of the C8 counterexample snapshot. -/
def c8start : XRow :=
  XRow.mk [(lit ("Name"),
    PyObj.str (lit ("(a) Listed / awaiting listing on Stock Exchanges")))]

/-- A qualifying data row whose Name happens to contain the start-marker
    phrase fragments as well. -/
def c8row : XRow :=
  XRow.mk [(lit ("Name"), PyObj.str (lit ("(a) Listed on Stock Exchange Ltd"))),
    (lit ("ISIN"), PyObj.str (lit ("INE000A01001")))]

/-- C8 counterexample: the start marker occurs (row 1) and no stop-marker
    phrase occurs in any later row, yet the qualifying row `c8row` (ISIN
    non-empty) is NOT captured, because the start-marker test is evaluated
    first on every row — even while capturing — and `continue`s over it.
    The claim's "captures every qualifying row through the end" fails. -/
theorem unterminatedSectionCapture_counterexample :
    isStartRow c8start = true ∧ isStopRow c8start = false ∧
      isStopRow c8row = false ∧ isinOk c8row = true ∧
      extractRows [c8start, c8row] false = [] := by decide

/-- C8 amended: when the start marker occurs, no earlier row matches the
    start pattern, and no later row matches either the stop markers or the
    start-marker pattern itself, the extractor captures exactly the
    qualifying rows (non-empty ISIN) through the end of the snapshot, and
    the result is returned normally (an unterminated section is accepted). -/
theorem unterminatedSectionCapture (pre post : List XRow) (s : XRow)
    (hs : isStartRow s = true)
    (hpre : ∀ r ∈ pre, isStartRow r = false)
    (hpost : ∀ r ∈ post, isStartRow r = false ∧ isStopRow r = false) :
    extractRows (pre ++ s :: post) false = post.filter isinOk := by
  have hseek : ∀ (l : List XRow), (∀ r ∈ l, isStartRow r = false) →
      extractRows (l ++ s :: post) false = extractRows (s :: post) false := by
    intro l hl
    induction l with
    | nil => rfl
    | cons a as ih =>
      rw [List.cons_append]
      unfold extractRows
      rw [if_neg (by simp [hl a (by simp)]), if_neg (by simp)]
      exact ih (fun r hr => hl r (by simp [hr]))
  have hcap : ∀ (l : List XRow),
      (∀ r ∈ l, isStartRow r = false ∧ isStopRow r = false) →
      extractRows l true = l.filter isinOk := by
    intro l
    induction l with
    | nil => intro _; rfl
    | cons a as ih =>
      intro hl
      obtain ⟨ha1, ha2⟩ := hl a (by simp)
      unfold extractRows
      rw [if_neg (by simp [ha1]), if_pos rfl, if_neg (by simp [ha2]),
        List.filter_cons]
      cases hq : isinOk a with
      | true => simp [ih (fun r hr => hl r (by simp [hr]))]
      | false => simp [ih (fun r hr => hl r (by simp [hr]))]
  rw [hseek pre hpre]
  unfold extractRows
  rw [if_pos hs]
  exact hcap post hpost

/-- C8 witness: with no stop and no repeated start markers, exactly the
    qualifying rows after the start marker are captured to end-of-file. -/
theorem unterminatedSectionCapture_witness :
    extractRows
        [XRow.mk [(lit ("Name"),
            PyObj.str (lit ("(a) Listed / awaiting listing on Stock Exchange")))],
         XRow.mk [(lit ("Name"), PyObj.str (lit ("Beta Ltd"))),
            (lit ("ISIN"), PyObj.str (lit ("INE200B01008")))],
         XRow.mk [(lit ("Name"), PyObj.str (lit ("spacer")))]] false =
      List.filter isinOk
        [XRow.mk [(lit ("Name"), PyObj.str (lit ("Beta Ltd"))),
            (lit ("ISIN"), PyObj.str (lit ("INE200B01008")))],
         XRow.mk [(lit ("Name"), PyObj.str (lit ("spacer")))]] :=
  unterminatedSectionCapture []
    [XRow.mk [(lit ("Name"), PyObj.str (lit ("Beta Ltd"))),
        (lit ("ISIN"), PyObj.str (lit ("INE200B01008")))],
     XRow.mk [(lit ("Name"), PyObj.str (lit ("spacer")))]]
    (XRow.mk [(lit ("Name"),
        PyObj.str (lit ("(a) Listed / awaiting listing on Stock Exchange")))])
    (by decide) (by decide) (by decide)

theorem lookupA_updA {β : Type} (k k' : Str) (f : β → β) (s : List (Str × β)) :
    lookupA k (updA k' f s) =
      if k' = k then (lookupA k s).map f else lookupA k s := by
  induction s with
  | nil => by_cases h : k' = k <;> simp [updA, lookupA, h]
  | cons p rest ih =>
    obtain ⟨a, v⟩ := p
    by_cases h1 : a = k' <;> by_cases h2 : a = k <;> by_cases h3 : k' = k <;>
      simp_all [updA, lookupA]

theorem lookupA_append_some {β : Type} {k : Str} {s : List (Str × β)} {v : β}
    (t : List (Str × β)) (h : lookupA k s = some v) :
    lookupA k (s ++ t) = some v := by
  induction s with
  | nil => simp [lookupA] at h
  | cons p rest ih =>
    obtain ⟨a, w⟩ := p
    by_cases ha : a = k
    · simp only [lookupA, if_pos ha] at h
      simp [lookupA, ha, h]
    · simp only [lookupA, if_neg ha] at h
      simp [lookupA, ha, ih h]

theorem lookupA_append_none {β : Type} {k : Str} {s : List (Str × β)}
    (t : List (Str × β)) (h : lookupA k s = Option.none) :
    lookupA k (s ++ t) = lookupA k t := by
  induction s with
  | nil => rfl
  | cons p rest ih =>
    obtain ⟨a, w⟩ := p
    by_cases ha : a = k
    · simp [lookupA, ha] at h
    · simp only [lookupA, if_neg ha] at h
      simp [lookupA, ha, ih h]

theorem lookupA_isSome_iff {β : Type} (k : Str) (s : List (Str × β)) :
    (lookupA k s).isSome = true ↔ k ∈ keysOf s := by
  induction s with
  | nil => simp [lookupA, keysOf]
  | cons p rest ih =>
    obtain ⟨a, v⟩ := p
    simp only [keysOf, List.map_cons, List.mem_cons]
    by_cases h : a = k
    · subst h
      simp only [lookupA, if_pos rfl, Option.isSome_some]
      exact ⟨fun _ => Or.inl trivial, fun _ => rfl⟩
    · simp only [lookupA, if_neg h]
      rw [ih]
      constructor
      · intro hm
        exact Or.inr hm
      · intro hca
        rcases hca with hEq | hm
        · exact absurd hEq.symm h
        · exact hm

theorem lookupA_eq_none_of_not_mem {β : Type} {k : Str} {s : List (Str × β)}
    (h : k ∉ keysOf s) : lookupA k s = Option.none := by
  cases ho : lookupA k s with
  | none => rfl
  | some v =>
    exact absurd ((lookupA_isSome_iff k s).mp (by simp [ho])) h

/-- What `processRow` does to the entry stored under any key. -/
theorem lookupA_processRow (fname k : Str) (pf : PF) (r : Rec) :
    lookupA k (processRow fname pf r) =
      if keyOf r = k then some (entProc fname (lookupA k pf) r)
      else lookupA k pf := by
  simp only [processRow]
  by_cases hk : keyOf r = k
  · subst hk
    rw [if_pos rfl]
    cases hex : lookupA (keyOf r) pf with
    | some e =>
      rw [if_pos (by simp [hex])]
      rw [lookupA_updA, if_pos rfl, lookupA_updA, if_pos rfl, hex]
      simp [entProc]
    | none =>
      rw [if_neg (by simp [hex])]
      rw [lookupA_updA, if_pos rfl, lookupA_updA, if_pos rfl,
        lookupA_append_none _ hex]
      simp [lookupA, entProc]
  · rw [if_neg hk]
    rw [lookupA_updA, if_neg hk, lookupA_updA, if_neg hk]
    cases hex : lookupA (keyOf r) pf with
    | some e => rw [if_pos (by simp [hex])]
    | none =>
      rw [if_neg (by simp [hex])]
      cases hk2 : lookupA k pf with
      | some v => rw [lookupA_append_some _ hk2]
      | none =>
        rw [lookupA_append_none _ hk2]
        simp [lookupA, hk]

/-- The metadata step of the merge loop on the stored Name: overwrite iff
    the stored value is Python-falsy and the incoming one is non-NA. -/
def nameStep (n x : PyObj) : PyObj :=
  if !truthy n && notna x then x else n

theorem entProc_some (f : Str) (E : Entry) (r : Rec) :
    entProc f (some E) r =
      ⟨nameStep E.name r.name, E.rating, setA f (metricsOf r) E.months⟩ := by
  simp only [entProc, nameStep]
  split_ifs <;> rfl

theorem entProc_none (f : Str) (r : Rec) :
    entProc f Option.none r = entProc f (some ⟨r.name, r.rating, []⟩) r := rfl

theorem entFold_some (f : Str) (E : Entry) (rs : List Rec) :
    entFold f (some E) rs =
      some ⟨List.foldl nameStep E.name (rs.map Rec.name), E.rating,
        List.foldl (fun M r => setA f (metricsOf r) M) E.months rs⟩ := by
  induction rs generalizing E with
  | nil => rfl
  | cons r rest ih =>
    show entFold f (some (entProc f (some E) r)) rest = _
    rw [entProc_some, ih]
    rfl

theorem nameStep_of_truthy {n : PyObj} (x : PyObj) (h : truthy n = true) :
    nameStep n x = n := by
  unfold nameStep
  rw [h]
  rfl

theorem nameStep_of_nonna {n x : PyObj} (h : notna x = false) :
    nameStep n x = n := by
  unfold nameStep
  rw [h, Bool.and_false]
  rfl

theorem nameStep_of_falsy {n x : PyObj} (hn : truthy n = false)
    (hx : notna x = true) : nameStep n x = x := by
  unfold nameStep
  rw [hn, hx]
  rfl

theorem truthy_nFold (n : PyObj) (xs : List PyObj) (h : truthy n = true) :
    List.foldl nameStep n xs = n := by
  induction xs generalizing n with
  | nil => rfl
  | cons x rest ih =>
    rw [List.foldl_cons, nameStep_of_truthy x h]
    exact ih n h

theorem nFold_idem (n : PyObj) (xs : List PyObj) :
    List.foldl nameStep (List.foldl nameStep n xs) xs =
      List.foldl nameStep n xs := by
  induction xs generalizing n with
  | nil => rfl
  | cons x rest ih =>
    rw [List.foldl_cons, List.foldl_cons]
    cases htr : truthy (List.foldl nameStep (nameStep n x) rest) with
    | true =>
      rw [nameStep_of_truthy x htr]
      exact ih (nameStep n x)
    | false =>
      cases hna : notna x with
      | false =>
        rw [nameStep_of_nonna hna]
        exact ih (nameStep n x)
      | true =>
        cases hn : truthy n with
        | true =>
          exfalso
          rw [nameStep_of_truthy x hn, truthy_nFold n rest hn, hn] at htr
          exact absurd htr (by simp)
        | false =>
          rw [nameStep_of_falsy htr hna, nameStep_of_falsy hn hna]

theorem setA_setA {β : Type} (k : Str) (v w : β) (M : List (Str × β)) :
    setA k v (setA k w M) = setA k v M := by
  induction M with
  | nil => simp [setA]
  | cons p rest ih =>
    obtain ⟨a, u⟩ := p
    by_cases h : a = k
    · subst h
      simp [setA]
    · simp [setA, h, ih]

theorem mFold_last (f : Str) (r : Rec) (rest : List Rec)
    (M : List (Str × MetricRec)) :
    List.foldl (fun M' r' => setA f (metricsOf r') M') M (r :: rest) =
      setA f (metricsOf (rest.getLastD r)) M := by
  induction rest generalizing r M with
  | nil => rfl
  | cons r2 rest2 ih =>
    rw [List.foldl_cons, ih r2 (setA f (metricsOf r) M), setA_setA]
    cases rest2 <;> rfl

theorem entFold_idem (f : Str) (e : Option Entry) (rs : List Rec) :
    entFold f (entFold f e rs) rs = entFold f e rs := by
  cases rs with
  | nil => rfl
  | cons r rest =>
    have hsome : ∀ E : Entry,
        entFold f (entFold f (some E) (r :: rest)) (r :: rest) =
          entFold f (some E) (r :: rest) := by
      intro E
      rw [entFold_some, entFold_some, mFold_last, mFold_last, setA_setA,
        nFold_idem]
    cases e with
    | some E => exact hsome E
    | none =>
      show entFold f (entFold f Option.none (r :: rest)) (r :: rest) = _
      have hred : entFold f Option.none (r :: rest) =
          entFold f (some ⟨r.name, r.rating, []⟩) (r :: rest) := by
        show entFold f (some (entProc f Option.none r)) rest = _
        rw [entProc_none]
        rfl
      rw [hred]
      exact hsome _

theorem lookupA_processFile (f k : Str) (pf : PF) (rs : List Rec) :
    lookupA k (processFile f pf rs) =
      entFold f (lookupA k pf) (rs.filter (fun r => keyOf r = k)) := by
  induction rs generalizing pf with
  | nil => rfl
  | cons r rest ih =>
    show lookupA k (processFile f (processRow f pf r) rest) = _
    rw [ih (processRow f pf r), lookupA_processRow]
    by_cases hk : keyOf r = k
    · rw [if_pos hk, List.filter_cons_of_pos (by simp [hk])]
      rfl
    · rw [if_neg hk, List.filter_cons_of_neg (by simp [hk])]

theorem keysOf_updA {β : Type} (k : Str) (f : β → β) (s : List (Str × β)) :
    keysOf (updA k f s) = keysOf s := by
  induction s with
  | nil => rfl
  | cons p rest ih =>
    obtain ⟨a, v⟩ := p
    by_cases h : a = k <;> simp [updA, keysOf, h] <;>
      simpa [keysOf] using ih

theorem keysOf_processRow (f : Str) (pf : PF) (r : Rec) :
    keysOf (processRow f pf r) =
      if (lookupA (keyOf r) pf).isSome then keysOf pf
      else keysOf pf ++ [keyOf r] := by
  simp only [processRow]
  split_ifs with h
  · rw [keysOf_updA, keysOf_updA]
  · rw [keysOf_updA, keysOf_updA]
    simp [keysOf]

theorem nodup_processRow (f : Str) (pf : PF) (r : Rec)
    (h : (keysOf pf).Nodup) : (keysOf (processRow f pf r)).Nodup := by
  rw [keysOf_processRow]
  split_ifs with hex
  · exact h
  · have hnm : keyOf r ∉ keysOf pf := by
      intro hm
      rw [← lookupA_isSome_iff] at hm
      simp [hm] at hex
    simp [List.nodup_append, h, hnm]

theorem nodup_processFile (f : Str) (pf : PF) (rs : List Rec)
    (h : (keysOf pf).Nodup) : (keysOf (processFile f pf rs)).Nodup := by
  induction rs generalizing pf with
  | nil => exact h
  | cons r rest ih =>
    exact ih (processRow f pf r) (nodup_processRow f pf r h)

theorem keysOf_processFile_stable (f : Str) (pf : PF) (rs : List Rec)
    (h : ∀ r ∈ rs, keyOf r ∈ keysOf pf) :
    keysOf (processFile f pf rs) = keysOf pf := by
  induction rs generalizing pf with
  | nil => rfl
  | cons r rest ih =>
    have h1 : keysOf (processRow f pf r) = keysOf pf := by
      rw [keysOf_processRow, if_pos]
      rw [lookupA_isSome_iff]
      exact h r (by simp)
    show keysOf (processFile f (processRow f pf r) rest) = keysOf pf
    rw [ih (processRow f pf r) (fun r' hr' => by
      rw [h1]
      exact h r' (by simp [hr']))]
    exact h1

theorem keysOf_processFile_mono (f : Str) (pf : PF) (rs : List Rec) (k : Str)
    (h : k ∈ keysOf pf) : k ∈ keysOf (processFile f pf rs) := by
  induction rs generalizing pf with
  | nil => exact h
  | cons r rest ih =>
    show k ∈ keysOf (processFile f (processRow f pf r) rest)
    apply ih
    rw [keysOf_processRow]
    split_ifs <;> simp [h]

theorem keyOf_mem_processFile (f : Str) (pf : PF) (rs : List Rec) (r : Rec)
    (h : r ∈ rs) : keyOf r ∈ keysOf (processFile f pf rs) := by
  induction rs generalizing pf with
  | nil => simp at h
  | cons r0 rest ih =>
    show keyOf r ∈ keysOf (processFile f (processRow f pf r0) rest)
    rcases List.mem_cons.mp h with rfl | hmem
    · apply keysOf_processFile_mono
      rw [keysOf_processRow]
      split_ifs with hex
      · exact (lookupA_isSome_iff _ _).mp hex
      · simp
    · exact ih (processRow f pf r0) hmem

theorem assocExt {β : Type} (s : List (Str × β)) :
    ∀ t : List (Str × β), keysOf s = keysOf t →
      (∀ k, lookupA k s = lookupA k t) → (keysOf s).Nodup → s = t := by
  induction s with
  | nil =>
    intro t hk _ _
    cases t with
    | nil => rfl
    | cons p rest => simp [keysOf] at hk
  | cons p rest ih =>
    intro t hk hl hnd
    obtain ⟨a, v⟩ := p
    cases t with
    | nil => simp [keysOf] at hk
    | cons q trest =>
      obtain ⟨b, w⟩ := q
      simp only [keysOf, List.map_cons, List.cons.injEq] at hk
      obtain ⟨hab, htail⟩ := hk
      subst hab
      have hv : v = w := by
        have h0 := hl a
        simp only [lookupA, if_pos rfl] at h0
        exact Option.some.inj h0
      have hndc := List.nodup_cons.mp (show (a :: keysOf rest).Nodup from hnd)
      have htl : ∀ k, lookupA k rest = lookupA k trest := by
        intro k
        by_cases hka : a = k
        · subst hka
          rw [lookupA_eq_none_of_not_mem hndc.1,
            lookupA_eq_none_of_not_mem (by
              rw [show keysOf trest = keysOf rest from htail.symm]
              exact hndc.1)]
        · have h0 := hl k
          simpa only [lookupA, if_neg hka] using h0
      rw [hv, ih trest (by simpa [keysOf] using htail) htl hndc.2]

/-- First record of the C2 counterexample run: Rating absent (NaN). -/
def c2r1 : Rec :=
  ⟨PyObj.str (lit ("Acme")), PyObj.str (lit ("INE1")), PyObj.nan,
   PyObj.num 1, PyObj.num 2, PyObj.num 3⟩

/-- Later record for the same Identifier supplying a non-empty Rating. -/
def c2r2 : Rec :=
  ⟨PyObj.str (lit ("Acme")), PyObj.str (lit ("INE1")),
   PyObj.str (lit ("AAA")), PyObj.num 4, PyObj.num 5, PyObj.num 6⟩

/-- C2 counterexample: the stored Rating is absent (NaN) after the first
    file, a later record supplies the non-empty Rating "AAA", and the
    merge leaves the Rating NaN — the engine never updates Rating after
    entry creation, so first-non-empty-wins does not hold for Rating. -/
theorem mergeMetadataRule_counterexample :
    (lookupA (lit ("INE1"))
        (processFile (lit ("January_2025")) [] [c2r1])).map Entry.rating =
      some PyObj.nan ∧
    c2r2.rating = PyObj.str (lit ("AAA")) ∧
    (lookupA (lit ("INE1"))
        (processFile (lit ("February_2025"))
          (processFile (lit ("January_2025")) [] [c2r1]) [c2r2])).map
        Entry.rating =
      some PyObj.nan ∧
    some PyObj.nan ≠ some (PyObj.str (lit ("AAA"))) := by decide

/-- C2 amended: for an existing entry, one merge step overwrites Name
    exactly when the stored Name is Python-falsy (None, empty string or
    zero — NaN is truthy, hence an absent Name is never replaced) and the
    incoming Name is non-NA; Rating is never modified after creation; the
    period metrics are unconditionally replaced.  In particular a
    non-empty stored Name is never overwritten. -/
theorem mergeMetadataRule (pf : PF) (fname : Str) (r : Rec) (e : Entry)
    (he : lookupA (keyOf r) pf = some e) :
    lookupA (keyOf r) (processRow fname pf r) =
      some ⟨if !truthy e.name && notna r.name then r.name else e.name,
        e.rating, setA fname (metricsOf r) e.months⟩ := by
  rw [lookupA_processRow, if_pos rfl, he, entProc_some]
  rfl

/-- C2 witness: concrete one-entry state, name empty string gets filled. -/
theorem mergeMetadataRule_witness :
    lookupA (lit ("X")) (processRow (lit ("March_2025"))
        [(lit ("X"), ⟨PyObj.str [], PyObj.nan, []⟩)]
        ⟨PyObj.str (lit ("NewCo")), PyObj.str (lit ("X")), PyObj.str (lit ("B")),
         PyObj.num 7, PyObj.num 8, PyObj.num 9⟩) =
      some ⟨if !truthy (PyObj.str []) &&
            notna (PyObj.str (lit ("NewCo"))) then PyObj.str (lit ("NewCo"))
          else PyObj.str [],
        PyObj.nan,
        setA (lit ("March_2025"))
          (metricsOf ⟨PyObj.str (lit ("NewCo")), PyObj.str (lit ("X")),
            PyObj.str (lit ("B")), PyObj.num 7, PyObj.num 8, PyObj.num 9⟩)
          []⟩ :=
  mergeMetadataRule [(lit ("X"), ⟨PyObj.str [], PyObj.nan, []⟩)]
    (lit ("March_2025"))
    ⟨PyObj.str (lit ("NewCo")), PyObj.str (lit ("X")), PyObj.str (lit ("B")),
     PyObj.num 7, PyObj.num 8, PyObj.num 9⟩
    ⟨PyObj.str [], PyObj.nan, []⟩ (by decide)

/-- C9: reprocessing the same (period, record list) pair a second time
    leaves the merged mapping unchanged — each Identifier's entry for that
    period is replaced with the same metric values, with no duplication
    and no summation.  (Reachable merged states have distinct keys.) -/
theorem mergeIdempotence (pf : PF) (fname : Str) (rs : List Rec)
    (hnd : (keysOf pf).Nodup) :
    processFile fname (processFile fname pf rs) rs =
      processFile fname pf rs := by
  apply assocExt
  · apply keysOf_processFile_stable
    intro r hr
    exact keyOf_mem_processFile fname pf rs r hr
  · intro k
    rw [lookupA_processFile, lookupA_processFile]
    exact entFold_idem fname (lookupA k pf) _
  · exact nodup_processFile _ _ _ (nodup_processFile _ _ _ hnd)

/-- Records for the C9 witness run. -/
def c9r1 : Rec :=
  ⟨PyObj.str (lit ("Acme")), PyObj.str (lit ("INE9A")), PyObj.str (lit ("IT")),
   PyObj.num 10, PyObj.num 20, PyObj.num 1⟩

/-- Second record of the C9 witness run (new identifier). -/
def c9r2 : Rec :=
  ⟨PyObj.nan, PyObj.str (lit ("INE9B")), PyObj.nan,
   PyObj.nan, PyObj.num 5, PyObj.nan⟩

/-- C9 witness: a concrete two-record file processed twice. -/
theorem mergeIdempotence_witness :
    processFile (lit ("January_2025"))
        (processFile (lit ("January_2025")) [] [c9r1, c9r2]) [c9r1, c9r2] =
      processFile (lit ("January_2025")) [] [c9r1, c9r2] :=
  mergeIdempotence [] (lit ("January_2025")) [c9r1, c9r2] (by decide)

/-- The zero-coercion of the claims' totals rule: a raw stored value with
    `None`/raising `float()` conversions as 0.0 and a NaN result also as
    0 (the spec-side reading of "absent"), stated from the spec for
    comparison with `columnTotal`. -/
def zeroCoerce (v : PyObj) : ℚ :=
  match coerceF v with
  | .fin q => q
  | .nan => 0

/-- The entry of the C4 counterexample: its January quantity cell is NaN
    (an empty cell in a captured row). -/
def c4e : Entry :=
  ⟨PyObj.str (lit ("Acme")), PyObj.str (lit ("IT")),
   [(lit ("January_2025"), ⟨PyObj.nan, PyObj.num 5, PyObj.num 1⟩)]⟩

/-- C4 counterexample: a NaN stored metric makes the whole column total
    NaN — `float(nan)` succeeds, so the `try/except` of `write_val` does
    not coerce it, `+=` propagates it, and the total is not the claimed
    0.0-coerced arithmetic sum (which here is 0), i.e. an absent value
    does make a total non-numeric. -/
theorem totalsZeroCoercion_counterexample :
    rawOf c4e (lit ("January_2025")) (fun x => x.quantity) = PyObj.nan ∧
    columnTotal [(lit ("INE1"), c4e)] (lit ("January_2025"))
        (fun x => x.quantity) = PyFloat.nan ∧
    PyFloat.nan ≠ PyFloat.fin (zeroCoerce PyObj.nan) := by decide

theorem coerceF_fin_of_ne_nan {v : PyObj} (h : coerceF v ≠ PyFloat.nan) :
    coerceF v = PyFloat.fin (zeroCoerce v) := by
  unfold zeroCoerce
  cases hc : coerceF v with
  | nan => exact absurd hc h
  | fin q => rfl

theorem columnTotal_acc (m : Str) (sel : MetricRec → PyObj) (l : PF) :
    ∀ q : ℚ, (∀ p ∈ l, coerceF (rawOf p.2 m sel) ≠ PyFloat.nan) →
      List.foldl (fun a p => pfAdd a (coerceF (rawOf p.2 m sel)))
          (PyFloat.fin q) l =
        PyFloat.fin (q + (l.map (fun p => zeroCoerce (rawOf p.2 m sel))).sum) := by
  induction l with
  | nil => intro q _; simp
  | cons p rest ih =>
    intro q hl
    rw [List.foldl_cons, coerceF_fin_of_ne_nan (hl p (by simp))]
    show List.foldl _ (PyFloat.fin (qAdd q (zeroCoerce (rawOf p.2 m sel)))) rest = _
    rw [ih _ (fun p' hp' => hl p' (by simp [hp']))]
    rw [qAdd_eq_add, List.map_cons, List.sum_cons, add_assoc]

theorem lookupA_setA_self {β : Type} (k : Str) (v : β) (M : List (Str × β)) :
    lookupA k (setA k v M) = some v := by
  induction M with
  | nil => simp [setA, lookupA]
  | cons p rest ih =>
    obtain ⟨a, u⟩ := p
    by_cases h : a = k
    · subst h
      simp [setA, lookupA]
    · simp [setA, lookupA, h, ih]

/-- C4 amended: the merge stores metric values raw (no store-time
    coercion), and a column total equals the arithmetic sum of the
    per-row zero-coerced values provided no stored value for that
    (period, metric) coerces to NaN; a NaN value propagates and makes the
    whole total NaN (see the counterexample). -/
theorem totalsZeroCoercion (pf : PF) (m : Str) (sel : MetricRec → PyObj) :
    ((∀ p ∈ pf, coerceF (rawOf p.2 m sel) ≠ PyFloat.nan) →
      columnTotal pf m sel =
        PyFloat.fin ((pf.map (fun p => zeroCoerce (rawOf p.2 m sel))).sum)) ∧
    (∀ fname r,
      (lookupA (keyOf r) (processRow fname pf r)).map
          (fun e => lookupA fname e.months) =
        some (some (metricsOf r))) := by
  constructor
  · intro h
    unfold columnTotal
    rw [columnTotal_acc m sel pf 0 h, zero_add]
  · intro fname r
    rw [lookupA_processRow, if_pos rfl]
    show some (lookupA fname (entProc fname (lookupA (keyOf r) pf) r).months) =
      some (some (metricsOf r))
    congr 1
    cases lookupA (keyOf r) pf with
    | some e =>
      rw [entProc_some]
      exact lookupA_setA_self fname (metricsOf r) e.months
    | none =>
      simp only [entProc]
      split_ifs <;> exact lookupA_setA_self fname (metricsOf r) _

/-- C4 witness entry with January data. -/
def c4w1 : Entry :=
  ⟨PyObj.str (lit ("Acme")), PyObj.str (lit ("IT")),
   [(lit ("January_2025"), ⟨PyObj.num 100, PyObj.num 5, PyObj.num 1⟩)]⟩

/-- C4 witness entry with no January data (absent month). -/
def c4w2 : Entry :=
  ⟨PyObj.str (lit ("Beta")), PyObj.str (lit ("FMCG")), []⟩

/-- C4 witness: with no NaN value in the column, the total is the
    arithmetic sum of the zero-coerced values. -/
theorem totalsZeroCoercion_witness :
    columnTotal [(lit ("A"), c4w1), (lit ("B"), c4w2)] (lit ("January_2025"))
        (fun x => x.quantity) =
      PyFloat.fin ((([(lit ("A"), c4w1), (lit ("B"), c4w2)] : PF).map
        (fun p => zeroCoerce
          (rawOf p.2 (lit ("January_2025")) (fun x => x.quantity)))).sum) :=
  (totalsZeroCoercion [(lit ("A"), c4w1), (lit ("B"), c4w2)]
    (lit ("January_2025")) (fun x => x.quantity)).1 (by decide)

theorem lookupA_setA_ne {β : Type} {k f : Str} (hk : k ≠ f) (v : β)
    (M : List (Str × β)) : lookupA k (setA f v M) = lookupA k M := by
  have hfk : ¬f = k := fun h => hk h.symm
  induction M with
  | nil => simp [setA, lookupA, hfk]
  | cons p rest ih =>
    obtain ⟨a, u⟩ := p
    by_cases h : a = f
    · subst h
      simp [setA, lookupA, hfk]
    · simp [setA, lookupA, h, ih]

theorem mem_updA {β : Type} {p : Str × β} {k : Str} {g : β → β}
    {s : List (Str × β)} (h : p ∈ updA k g s) :
    p ∈ s ∨ ∃ q ∈ s, p = (q.1, g q.2) := by
  induction s with
  | nil => simp [updA] at h
  | cons hd rest ih =>
    obtain ⟨a, v⟩ := hd
    by_cases ha : a = k
    · rw [updA, if_pos ha] at h
      rcases List.mem_cons.mp h with rfl | hm
      · exact Or.inr ⟨(a, v), by simp⟩
      · exact Or.inl (by simp [hm])
    · rw [updA, if_neg ha] at h
      rcases List.mem_cons.mp h with rfl | hm
      · exact Or.inl (by simp)
      · rcases ih hm with h1 | ⟨q, hq, rfl⟩
        · exact Or.inl (by simp [h1])
        · exact Or.inr ⟨q, by simp [hq]⟩

theorem months_none_processRow {k f : Str} (hk : k ≠ f) (pf : PF) (r : Rec)
    (h : ∀ p ∈ pf, lookupA k p.2.months = Option.none) :
    ∀ p ∈ processRow f pf r, lookupA k p.2.months = Option.none := by
  intro p hp
  simp only [processRow] at hp
  have h1 : ∀ q ∈ (if (lookupA (keyOf r) pf).isSome then pf
      else pf ++ [(keyOf r, ⟨r.name, r.rating, []⟩)]),
      lookupA k q.2.months = Option.none := by
    intro q hq
    split_ifs at hq with hex
    · exact h q hq
    · rcases List.mem_append.mp hq with hq1 | hq2
      · exact h q hq1
      · have : q = (keyOf r, (⟨r.name, r.rating, []⟩ : Entry)) := by
          simpa using hq2
        rw [this]
        rfl
  have h2 : ∀ q ∈ updA (keyOf r)
      (fun e => if !truthy e.name && notna r.name then
        { e with name := r.name } else e)
      (if (lookupA (keyOf r) pf).isSome then pf
        else pf ++ [(keyOf r, ⟨r.name, r.rating, []⟩)]),
      lookupA k q.2.months = Option.none := by
    intro q hq
    rcases mem_updA hq with hq1 | ⟨q', hq', rfl⟩
    · exact h1 q hq1
    · have := h1 q' hq'
      split_ifs <;> simpa using this
  rcases mem_updA hp with hp1 | ⟨q', hq', rfl⟩
  · exact h2 _ hp1
  · have := h2 q' hq'
    simpa [lookupA_setA_ne hk] using this

theorem months_none_processFile {k f : Str} (hk : k ≠ f) (pf : PF)
    (rs : List Rec) (h : ∀ p ∈ pf, lookupA k p.2.months = Option.none) :
    ∀ p ∈ processFile f pf rs, lookupA k p.2.months = Option.none := by
  induction rs generalizing pf with
  | nil => exact h
  | cons r rest ih =>
    exact ih (processRow f pf r) (months_none_processRow hk pf r h)

theorem months_none_portfolio (files : List FileIn) (k : Str)
    (hf : ∀ fj ∈ files, fj.parsed.isSome → fj.fname ≠ k) :
    ∀ p ∈ portfolioOf files, lookupA k p.2.months = Option.none := by
  have aux : ∀ (fs : List FileIn) (acc : PF),
      (∀ p ∈ acc, lookupA k p.2.months = Option.none) →
      (∀ fj ∈ fs, fj.parsed.isSome → fj.fname ≠ k) →
      ∀ p ∈ fs.foldl (fun pf fi =>
        match fi.parsed with
        | some rs => processFile fi.fname pf rs
        | Option.none => pf) acc,
        lookupA k p.2.months = Option.none := by
    intro fs
    induction fs with
    | nil => intro acc hacc _; exact hacc
    | cons fj rest ih =>
      intro acc hacc hfs
      cases hp : fj.parsed with
      | none =>
        simp only [List.foldl_cons, hp]
        exact ih acc hacc (fun x hx => hfs x (by simp [hx]))
      | some rs =>
        simp only [List.foldl_cons, hp]
        have hne : fj.fname ≠ k := hfs fj (by simp) (by simp [hp])
        exact ih (processFile fj.fname acc rs)
          (months_none_processFile (fun hkk => hne hkk.symm) acc rs hacc)
          (fun x hx => hfs x (by simp [hx]))
  exact aux files [] (by simp) hf

theorem mem_allMonths_mono (files : List FileIn) (m : Str) :
    ∀ acc : List Str, m ∈ acc →
      m ∈ files.foldl
        (fun ms fi => if fi.fname ∈ ms then ms else ms ++ [fi.fname]) acc := by
  induction files with
  | nil => intro acc h; exact h
  | cons fj rest ih =>
    intro acc h
    simp only [List.foldl_cons]
    apply ih
    split_ifs <;> simp [h]

theorem mem_allMonthsOf (files : List FileIn) (fi : FileIn)
    (h : fi ∈ files) : fi.fname ∈ allMonthsOf files := by
  have aux : ∀ (fs : List FileIn) (acc : List Str), fi ∈ fs →
      fi.fname ∈ fs.foldl
        (fun ms fj => if fj.fname ∈ ms then ms else ms ++ [fj.fname]) acc := by
    intro fs
    induction fs with
    | nil => intro acc h0; simp at h0
    | cons fj rest ih =>
      intro acc h0
      simp only [List.foldl_cons]
      rcases List.mem_cons.mp h0 with rfl | hmem
      · apply mem_allMonths_mono
        split_ifs with hin <;> simp [hin]
      · exact ih _ hmem
  exact aux files [] h

theorem rawOf_none {e : Entry} {m : Str}
    (h : lookupA m e.months = Option.none) (sel : MetricRec → PyObj) :
    rawOf e m sel = PyObj.none := by
  unfold rawOf
  rw [h]

theorem columnTotal_zero (pf : PF) (m : Str) (sel : MetricRec → PyObj)
    (h : ∀ p ∈ pf, rawOf p.2 m sel = PyObj.none) :
    columnTotal pf m sel = PyFloat.fin 0 := by
  unfold columnTotal
  rw [columnTotal_acc m sel pf 0 (fun p hp => by rw [h p hp]; decide),
    zero_add]
  congr 1
  apply List.sum_eq_zero
  intro x hx
  obtain ⟨p, hp, rfl⟩ := List.mem_map.mp hx
  rw [h p hp]
  rfl

/-- C10: the period label of every input file appears in the final
    PeriodSequence even when the file's extraction fails and it
    contributes no records — the label is recorded before parsing — and
    that month group then has blank per-row cells and 0.0 column totals. -/
theorem skippedFileStillColumn (files : List FileIn) (fi : FileIn)
    (hmem : fi ∈ files) (hfail : fi.parsed = Option.none)
    (hnd : (files.map FileIn.fname).Nodup) :
    fi.fname ∈ sortedMonths (allMonthsOf files) ∧
    (∀ p ∈ portfolioOf files, ∀ sel : MetricRec → PyObj,
      writeCell (rawOf p.2 fi.fname sel) = PyObj.none) ∧
    (∀ sel : MetricRec → PyObj,
      columnTotal (portfolioOf files) fi.fname sel = PyFloat.fin 0) := by
  have hinj := List.inj_on_of_nodup_map hnd
  have hone : ∀ fj ∈ files, fj.parsed.isSome → fj.fname ≠ fi.fname := by
    intro fj hj hsome heq
    have hfj : fj = fi := hinj hj hmem heq
    rw [hfj, hfail] at hsome
    simp at hsome
  have hm := months_none_portfolio files fi.fname hone
  refine ⟨?_, ?_, ?_⟩
  · rw [sortedMonths]
    exact (List.perm_insertionSort keyLe (allMonthsOf files)).mem_iff.mpr
      (mem_allMonthsOf files fi hmem)
  · intro p hp sel
    rw [rawOf_none (hm p hp) sel]
    rfl
  · intro sel
    exact columnTotal_zero _ _ _ (fun p hp => rawOf_none (hm p hp) sel)

/-- The successfully parsed file of the C10 witness run. -/
def c10good : FileIn :=
  ⟨lit ("January_2025"),
   some [⟨PyObj.str (lit ("Acme")), PyObj.str (lit ("INEC10")),
     PyObj.str (lit ("IT")), PyObj.num 10, PyObj.num 20, PyObj.num 1⟩]⟩

/-- The failed file of the C10 witness run. -/
def c10bad : FileIn := ⟨lit ("Broken_File"), Option.none⟩

/-- C10 witness: the failed file's label still gets a month group with
    blank cells and zero totals. -/
theorem skippedFileStillColumn_witness :
    c10bad.fname ∈ sortedMonths (allMonthsOf [c10good, c10bad]) ∧
    (∀ p ∈ portfolioOf [c10good, c10bad], ∀ sel : MetricRec → PyObj,
      writeCell (rawOf p.2 c10bad.fname sel) = PyObj.none) ∧
    (∀ sel : MetricRec → PyObj,
      columnTotal (portfolioOf [c10good, c10bad]) c10bad.fname sel =
        PyFloat.fin 0) :=
  skippedFileStillColumn [c10good, c10bad] c10bad (by decide) rfl (by decide)

/-- C1 counterexample: for the empty merged mapping (one observed month,
    e.g. from a skipped file), assemble-then-inverse-parse yields one
    record — the totals row, whose first column is the non-empty label
    "Total", is read back as a data record — although M has none, so the
    round trip produces records beyond those of M. -/
theorem roundTripLaw_counterexample :
    readBack (assemble [] [lit ("January_2025")]) =
      ([PyObj.str (lit ("January_2025"))],
       [⟨PyObj.str (lit ("Total")), [], [],
         [(PyObj.str (lit ("January_2025")),
           (PyFloat.fin 0, PyFloat.fin 0, PyFloat.fin 0))]⟩]) := by decide

/-- A stored Name that survives the inverse parse's row filter: a
    non-empty string other than (case-insensitively) "nan". -/
def isNameOk : PyObj → Bool
  | .str s => s ≠ [] && lowerStr s ≠ lit ("nan")
  | _ => false

/-- The record the inverse parse reconstructs for one portfolio entry:
    the four retained fields, with every numeric absence read back as an
    explicit 0.0 (`zeroCoerce`) and Identifier/Rating sanitized by
    `clean_meta`. -/
def expectedRb (p : Str × Entry) (ms : List Str) : RbRec :=
  ⟨p.2.name, cleanMeta (PyObj.str p.1), cleanMeta p.2.rating,
   ms.map (fun m => (PyObj.str m,
     (PyFloat.fin (zeroCoerce (rawOf p.2 m (fun x => x.quantity))),
      PyFloat.fin (zeroCoerce (rawOf p.2 m (fun x => x.marketValue))),
      PyFloat.fin (zeroCoerce (rawOf p.2 m (fun x => x.pctAssets))))))⟩

/-- The extra trailing record the inverse parse reconstructs from the
    totals row. -/
def totalRb (pf : PF) (ms : List Str) : RbRec :=
  ⟨PyObj.str (lit ("Total")), [], [],
   ms.map (fun m => (PyObj.str m,
     (cleanNum (pfToObj (columnTotal pf m (fun x => x.quantity))),
      cleanNum (pfToObj (columnTotal pf m (fun x => x.marketValue))),
      cleanNum (pfToObj (columnTotal pf m (fun x => x.pctAssets))))))⟩

theorem cleanW (raw : PyObj) :
    cleanNum (writeCell raw) = PyFloat.fin (zeroCoerce raw) := by
  cases raw with
  | none => rfl
  | nan => rfl
  | num q =>
    simp [writeCell, coerceF, pyFloatFn, pfToObj, cleanNum, isna, zeroCoerce]
  | str s =>
    simp only [writeCell, coerceF, pyFloatFn, zeroCoerce]
    cases hp : parsePyFloat s with
    | none => simp [pfToObj, cleanNum, isna, pyFloatFn]
    | some f =>
      cases f with
      | nan => rfl
      | fin q => simp [pfToObj, cleanNum, isna, pyFloatFn]

theorem cellAt_append (pre l : List PyObj) (i : ℕ) :
    cellAt (pre ++ l) (pre.length + i) = cellAt l i := by
  induction pre with
  | nil => simp [cellAt]
  | cons c cs ih =>
    have h : (c :: cs).length + i = (cs.length + i) + 1 := by
      simp [Nat.add_right_comm]
    rw [h, List.cons_append]
    show (cs ++ l).getD (cs.length + i) PyObj.none = cellAt l i
    exact ih

theorem every3From_triples (f x y : Str → PyObj) (ms : List Str) :
    every3From (ms.flatMap (fun m => [f m, x m, y m])) = ms.map f := by
  induction ms with
  | nil => rfl
  | cons m rest ih =>
    rw [List.flatMap_cons]
    show f m :: every3From (rest.flatMap (fun m => [f m, x m, y m])) =
      (m :: rest).map f
    rw [ih, List.map_cons]

theorem buildMonths_aligned (g : Str → List PyObj) (a b c : Str → PyObj)
    (hg : ∀ m, g m = [a m, b m, c m]) (ms : List Str) :
    ∀ pre : List PyObj,
      buildMonths (pre ++ ms.flatMap g) pre.length (ms.map PyObj.str) =
        ms.map (fun m =>
          (PyObj.str m, (cleanNum (a m), cleanNum (b m), cleanNum (c m)))) := by
  induction ms with
  | nil => intro pre; rfl
  | cons m rest ih =>
    intro pre
    have hflat : (m :: rest).flatMap g = [a m, b m, c m] ++ rest.flatMap g := by
      rw [List.flatMap_cons, hg m]
    rw [hflat, List.map_cons, List.map_cons]
    show (PyObj.str m,
        (cleanNum (cellAt (pre ++ ([a m, b m, c m] ++ rest.flatMap g))
          pre.length),
         cleanNum (cellAt (pre ++ ([a m, b m, c m] ++ rest.flatMap g))
          (pre.length + 1)),
         cleanNum (cellAt (pre ++ ([a m, b m, c m] ++ rest.flatMap g))
          (pre.length + 2)))) ::
      buildMonths (pre ++ ([a m, b m, c m] ++ rest.flatMap g))
        (pre.length + 3) (rest.map PyObj.str) = _
    have h0 : cellAt (pre ++ ([a m, b m, c m] ++ rest.flatMap g))
        pre.length = a m := by
      rw [show pre.length = pre.length + 0 from rfl, cellAt_append]
      rfl
    have h1 : cellAt (pre ++ ([a m, b m, c m] ++ rest.flatMap g))
        (pre.length + 1) = b m := by
      rw [cellAt_append]
      rfl
    have h2 : cellAt (pre ++ ([a m, b m, c m] ++ rest.flatMap g))
        (pre.length + 2) = c m := by
      rw [cellAt_append]
      rfl
    have h3 : buildMonths (pre ++ ([a m, b m, c m] ++ rest.flatMap g))
        (pre.length + 3) (rest.map PyObj.str) =
        rest.map (fun m =>
          (PyObj.str m, (cleanNum (a m), cleanNum (b m), cleanNum (c m)))) := by
      have hi := ih (pre ++ [a m, b m, c m])
      rw [List.append_assoc] at hi
      rw [show (pre ++ [a m, b m, c m]).length = pre.length + 3 from by
        simp] at hi
      exact hi
    rw [h0, h1, h2, h3]

theorem rowRecord_dataRow (k : Str) (e : Entry) (ms : List Str)
    (h : isNameOk e.name = true) :
    rowRecord (ms.map PyObj.str) (dataRow k e ms) =
      some (expectedRb (k, e) ms) := by
  cases hn : e.name with
  | none => rw [hn] at h; simp [isNameOk] at h
  | nan => rw [hn] at h; simp [isNameOk] at h
  | num q => rw [hn] at h; simp [isNameOk] at h
  | str s =>
    rw [hn] at h
    simp only [isNameOk, Bool.and_eq_true, decide_eq_true_eq] at h
    unfold rowRecord
    rw [show cellAt (dataRow k e ms) 0 = e.name from rfl, hn]
    rw [if_neg (by simp [isna, pyStr, h.2])]
    have hb : buildMonths (dataRow k e ms) 3 (ms.map PyObj.str) =
        ms.map (fun m => (PyObj.str m,
          (cleanNum (writeCell (rawOf e m (fun x => x.quantity))),
           cleanNum (writeCell (rawOf e m (fun x => x.marketValue))),
           cleanNum (writeCell (rawOf e m (fun x => x.pctAssets)))))) := by
      have := buildMonths_aligned (monthTriple e)
        (fun m => writeCell (rawOf e m (fun x => x.quantity)))
        (fun m => writeCell (rawOf e m (fun x => x.marketValue)))
        (fun m => writeCell (rawOf e m (fun x => x.pctAssets)))
        (fun m => rfl) ms [e.name, PyObj.str k, e.rating]
      exact this
    rw [show cellAt (dataRow k e ms) 1 = PyObj.str k from rfl,
      show cellAt (dataRow k e ms) 2 = e.rating from rfl, hb]
    unfold expectedRb
    rw [hn]
    congr 1
    simp only [RbRec.mk.injEq]
    refine ⟨trivial, trivial, trivial, ?_⟩
    apply List.map_congr_left
    intro m _
    rw [cleanW, cleanW, cleanW]

theorem rowRecord_totalsRow (pf : PF) (ms : List Str) :
    rowRecord (ms.map PyObj.str) (totalsRow pf ms) =
      some (totalRb pf ms) := by
  unfold rowRecord
  rw [show cellAt (totalsRow pf ms) 0 = PyObj.str (lit ("Total")) from rfl]
  rw [if_neg (by decide)]
  have hb : buildMonths (totalsRow pf ms) 3 (ms.map PyObj.str) =
      ms.map (fun m => (PyObj.str m,
        (cleanNum (pfToObj (columnTotal pf m (fun x => x.quantity))),
         cleanNum (pfToObj (columnTotal pf m (fun x => x.marketValue))),
         cleanNum (pfToObj (columnTotal pf m (fun x => x.pctAssets)))))) := by
    have := buildMonths_aligned
      (fun m => [pfToObj (columnTotal pf m (fun x => x.quantity)),
        pfToObj (columnTotal pf m (fun x => x.marketValue)),
        pfToObj (columnTotal pf m (fun x => x.pctAssets))])
      (fun m => pfToObj (columnTotal pf m (fun x => x.quantity)))
      (fun m => pfToObj (columnTotal pf m (fun x => x.marketValue)))
      (fun m => pfToObj (columnTotal pf m (fun x => x.pctAssets)))
      (fun m => rfl) ms
      [PyObj.str (lit ("Total")), PyObj.none, PyObj.none]
    exact this
  rw [show cellAt (totalsRow pf ms) 1 = PyObj.none from rfl,
    show cellAt (totalsRow pf ms) 2 = PyObj.none from rfl, hb]
  rfl

/-- C1 amended: for a merged mapping whose stored Names are non-empty
    strings other than "nan" (the inverse parse drops rows failing that
    filter), assembling the ReportMatrix and applying the inverse parse
    yields the PeriodSequence and, in order, exactly M's records
    restricted to {Identifier, Name, Rating, Months} — numeric absences
    read back as explicit 0.0, Identifier and Rating sanitized to strings
    — plus ONE additional trailing record labelled "Total" carrying the
    zero-coerced column totals, since the totals row's first column is
    non-empty and is therefore read back as a data record. -/
theorem roundTripLaw (pf : PF) (ms : List Str)
    (hname : ∀ p ∈ pf, isNameOk p.2.name = true) :
    readBack (assemble pf ms) =
      (ms.map PyObj.str,
       pf.map (fun p => expectedRb p ms) ++ [totalRb pf ms]) := by
  have hmonths : matrixMonths (assemble pf ms) = ms.map PyObj.str := by
    show ((every3From (ms.flatMap
        (fun m => [PyObj.str m, PyObj.none, PyObj.none]))).filter
      (fun v => notna v)) = ms.map PyObj.str
    rw [every3From_triples (fun m => PyObj.str m) (fun _ => PyObj.none)
      (fun _ => PyObj.none)]
    apply List.filter_eq_self.mpr
    intro v hv
    obtain ⟨m, _, rfl⟩ := List.mem_map.mp hv
    rfl
  have hmap : ∀ l : PF, (∀ p ∈ l, isNameOk p.2.name = true) →
      (l.map (fun p => dataRow p.1 p.2 ms)).filterMap
          (rowRecord (ms.map PyObj.str)) =
        l.map (fun p => expectedRb p ms) := by
    intro l hl
    induction l with
    | nil => rfl
    | cons p rest ih =>
      rw [List.map_cons, List.filterMap_cons,
        rowRecord_dataRow p.1 p.2 ms (hl p (by simp)),
        ih (fun q hq => hl q (by simp [hq])), List.map_cons]
  show (matrixMonths (assemble pf ms),
      ((assemble pf ms).drop 3).filterMap
        (rowRecord (matrixMonths (assemble pf ms)))) = _
  rw [hmonths]
  rw [show (assemble pf ms).drop 3 =
    pf.map (fun p => dataRow p.1 p.2 ms) ++ [totalsRow pf ms] from rfl]
  rw [List.filterMap_append, hmap pf hname]
  rw [show List.filterMap (rowRecord (ms.map PyObj.str)) [totalsRow pf ms] =
    [totalRb pf ms] from by
      rw [List.filterMap_cons, rowRecord_totalsRow]
      rfl]

/-- The merged mapping of the C1 witness run: one holding with a NaN
    market value and a string-typed percentage. -/
def c1pf : PF :=
  [(lit ("INE1"),
    ⟨PyObj.str (lit ("Acme")), PyObj.str (lit ("IT")),
     [(lit ("January_2025"),
       ⟨PyObj.num 100, PyObj.nan, PyObj.str (lit ("2.5"))⟩)]⟩)]

/-- C1 witness: the round trip on a concrete mapping returns its record
    plus the trailing "Total" record. -/
theorem roundTripLaw_witness :
    readBack (assemble c1pf [lit ("January_2025")]) =
      ([PyObj.str (lit ("January_2025"))],
       c1pf.map (fun p => expectedRb p [lit ("January_2025")]) ++
         [totalRb c1pf [lit ("January_2025")]]) :=
  roundTripLaw c1pf [lit ("January_2025")] (by decide)
